import Mathlib

/-!
Verification of the two-level Boolean minimizer (`lab1`): a shallow
embedding of `implicants.py` and `cover.py` as executable Lean functions,
followed by theorems settling the behavioural claims about them.

Conventions of the embedding:
* Python strings over the alphabet `'0'`, `'1'`, `'-'` are Lean `String`s;
  character-wise loops work on `String.data`.
* Python `zip` truncates to the shorter argument; so does `List.zip`.
* Python sets are modelled as lists considered up to membership; wherever
  the source materialises `sorted(set(...))`, the embedding uses
  `pySortedSet` (dedup then stable merge sort by code-point order), which
  produces the same list.
* Python dicts are modelled as association lists with the same
  insert/overwrite behaviour (`dictUpdate`), preserving insertion order.
-/

namespace Lab1

/-- Code-point comparison of characters, as Python compares characters. -/
def charLt (a b : Char) : Bool := a.toNat < b.toNat

/-- Lexicographic strict order on character lists: Python's `<` on strings. -/
def strLtB : List Char → List Char → Bool
  | [], [] => false
  | [], _ :: _ => true
  | _ :: _, [] => false
  | a :: as, b :: bs => charLt a b || (a = b && strLtB as bs)

/-- Python's `a < b` on strings. -/
def pyLt (a b : String) : Bool := strLtB a.data b.data

/-- Non-strict comparison driving the sorts (total, transitive). -/
def pyLe (a b : String) : Prop := pyLt b a = false

instance : DecidableRel pyLe := fun a b => inferInstanceAs (Decidable (_ = false))

/-- Python's `sorted`: a stable sort in increasing code-point order
(insertion sort here; any stable sort computes the same list). -/
def pySorted (l : List String) : List String := l.insertionSort pyLe

/-- `sorted(some_set)` in Python: distinct elements in increasing order. -/
def pySortedSet (l : List String) : List String := pySorted l.dedup

/-- Number of `'1'` characters, the grouping key of `group_once`. -/
def count1 (s : String) : Nat := s.data.countP (fun c => c = '1')

/-- Number of fixed (non-dash) positions of a term. -/
def fixedCount (s : String) : Nat := s.data.countP (fun c => c ≠ '-')

/-- The loop body of `combine_if_one_bit_diff`: walk the zipped characters
keeping the running difference count and output, with the source's early
returns (`'-'` against a fixed bit, or a second difference, aborts). -/
def combineLoop : List (Char × Char) → Nat → List Char → Option (Nat × List Char)
  | [], diff, out => some (diff, out)
  | (xa, xb) :: rest, diff, out =>
    if xa = xb then
      combineLoop rest diff (out ++ [xa])
    else if xa = '-' || xb = '-' then
      none
    else if diff + 1 > 1 then
      none
    else
      combineLoop rest (diff + 1) (out ++ ['-'])

/-- `combine_if_one_bit_diff(a, b)` from `implicants.py`: merge two terms
when they differ in exactly one opposing fixed bit. -/
def combine_if_one_bit_diff (a b : String) : Option String :=
  match combineLoop (a.data.zip b.data) 0 [] with
  | none => none
  | some (diff, out) => if diff = 1 then some (String.mk out) else none

/-- `implicant_covers_input(implicant, input_bits)` from `implicants.py`. -/
def implicant_covers_input (implicant input_bits : String) : Bool :=
  (implicant.data.zip input_bits.data).all (fun p => p.1 = '-' || p.1 = p.2)

/-- `implicant_covers_implicant(a, b)` from `implicants.py`. -/
def implicant_covers_implicant (a b : String) : Bool :=
  (a.data.zip b.data).all (fun p => p.1 = '-' || p.1 = p.2)

/-- All ordered pairs `(l[i], l[j])` with `i < j`, in the double-loop order
of `group_once`. -/
def pairsOf : List String → List (String × String)
  | [] => []
  | x :: xs => xs.map (fun y => (x, y)) ++ pairsOf xs

/-- `group_once(terms)` from `implicants.py`: sort by `'1'`-count, attempt
every pair, return (sorted distinct combination results, terms that
combined with nothing, in order). -/
def group_once (terms : List String) : List String × List String :=
  let terms_sorted := terms.insertionSort (fun a b => count1 a ≤ count1 b)
  let ps := pairsOf terms_sorted
  let new_terms := pySortedSet (ps.filterMap (fun p => combine_if_one_bit_diff p.1 p.2))
  let leftovers := terms_sorted.filter (fun t =>
    !(ps.any (fun p => (p.1 = t || p.2 = t) && (combine_if_one_bit_diff p.1 p.2).isSome)))
  (new_terms, leftovers)

/-- Largest fixed-position count among the current terms; the loop measure. -/
def maxFixed (l : List String) : Nat := (l.map fixedCount).foldr max 0

/-- The `while True` loop of `derive_prime_implicants`, with explicit fuel;
`none` means the fuel ran out before the level chain became empty. -/
def qmLoop : Nat → List String → List String → Option (List String)
  | 0, _, _ => none
  | fuel + 1, current, acc =>
    let gl := group_once current
    let acc' := acc ++ gl.2
    if gl.1 = [] then some (acc' ++ current) else qmLoop fuel gl.1 acc'

/-- Index-based redundancy elimination at the end of
`derive_prime_implicants`: keep `pis[i]` unless some `pis[j]` with `j ≠ i`
covers it. -/
def nonRedundant (pis : List String) : List String :=
  pis.enum.filterMap (fun q =>
    if pis.enum.any (fun r => r.1 ≠ q.1 && implicant_covers_implicant r.2 q.2) then
      none
    else
      some q.2)

/-- `derive_prime_implicants(minterms)` from `implicants.py`.  The source's
unbounded loop is run with fuel `maxFixed + 1`, which the termination
theorem shows is never exhausted (each combination strictly decreases the
fixed-position count); the `[]` fallback is dead code. -/
def derive_prime_implicants (minterms : List String) : List String :=
  let current := pySortedSet minterms
  match qmLoop (maxFixed current + 1) current [] with
  | some primes => pySortedSet (nonRedundant (pySortedSet primes))
  | none => []

/-- `build_onset_terms` / the onset comprehensions: Python `y[k]`, with a
junk character for an out-of-range index (unreachable under the documented
positional-alignment interface). -/
def trit (y : String) (k : Nat) : Char := y.data.getD k '?'

/-- `onset_bits`: inputs whose output trit at column `k` is `'1'`. -/
def onsetBits (inputs outputs : List String) (k : Nat) : List String :=
  (inputs.zip outputs).filterMap (fun p => if trit p.2 k = '1' then some p.1 else none)

/-- `dcare_bits`: inputs whose output trit at column `k` is `'-'`. -/
def dcareBits (inputs outputs : List String) (k : Nat) : List String :=
  (inputs.zip outputs).filterMap (fun p => if trit p.2 k = '-' then some p.1 else none)

/-- `union_bits = sorted(set(onset_bits) | set(dcare_bits))`. -/
def unionBits (inputs outputs : List String) (k : Nat) : List String :=
  pySortedSet (onsetBits inputs outputs k ++ dcareBits inputs outputs k)

/-- `off_bits = set(inputs_bits) - set(union_bits)` (as a list up to
membership). -/
def offBits (inputs outputs : List String) (k : Nat) : List String :=
  inputs.filter (fun x => !(unionBits inputs outputs k).contains x)

/-- The prime implicants surviving the off-set post-filter in
`select_cover_for_one_output`. -/
def candidatePis (inputs outputs : List String) (k : Nat) : List String :=
  (derive_prime_implicants (unionBits inputs outputs k)).filter
    (fun pi => !(offBits inputs outputs k).any (fun xoff => implicant_covers_input pi xoff))

/-- Python `enumerate`: pair each element with its index. -/
def withIdx (l : List String) : List (Nat × String) := l.enum

/-- Python dict assignment `d[k] = v`: overwrite in place, else append. -/
def dictUpdate (d : List (String × Nat)) (key : String) (v : Nat) : List (String × Nat) :=
  if d.any (fun p => p.1 = key) then
    d.map (fun p => if p.1 = key then (key, v) else p)
  else
    d ++ [(key, v)]

/-- `idx_by_bits = {bits: idx for idx, bits in enumerate(inputs_bits)}` as
an insertion-ordered association list. -/
def idx_by_bits (inputs : List String) : List (String × Nat) :=
  (withIdx inputs).foldl (fun d p => dictUpdate d p.2 p.1) []

/-- Python `idx_by_bits[b]` (total: defaults to `0` on a missing key, which
never happens at the call sites since every onset term is an input). -/
def idxOfBits (inputs : List String) (b : String) : Nat :=
  ((idx_by_bits inputs).lookup b).getD 0

/-- `on_indices = set(idx_by_bits[b] for b in onset_bits)`. -/
def onIndices (inputs outputs : List String) (k : Nat) : List Nat :=
  ((onsetBits inputs outputs k).map (idxOfBits inputs)).dedup

/-- The per-implicant coverage entry built for the `covers` dict: indices
of enumerated inputs that are onset minterms covered by `pi`.  Modelled as
a function; the source dict has exactly the candidate implicants as keys
and its `get(pi, set())` reads agree with this function there. -/
def coversFun (inputs outputs : List String) (k : Nat) (pi : String) : List Nat :=
  (idx_by_bits inputs).filterMap (fun p =>
    if (onsetBits inputs outputs k).contains p.1 && implicant_covers_input pi p.1 then
      some p.2
    else
      none)

/-- `minterm_to_pis`: each on-index mapped to the candidate implicants
covering it, in candidate order (the insertion order of the source loop
over `covers.items()`). -/
def mintermTable (inputs outputs : List String) (k : Nat) : List (Nat × List String) :=
  (onIndices inputs outputs k).map (fun i =>
    (i, (candidatePis inputs outputs k).filter (fun pi => (coversFun inputs outputs k pi).contains i)))

/-- `pick_epis(minterm_to_pis)` from `cover.py`: implicants that are the
unique candidate of some minterm, plus the minterms they cover. -/
def pick_epis (table : List (Nat × List String)) : List String × List Nat :=
  let epis := (table.filterMap (fun p =>
    if p.2.length = 1 then some (p.2.headD "") else none)).dedup
  let covered :=
    if epis.isEmpty then []
    else table.filterMap (fun p => if p.2.any (fun pi => epis.contains pi) then some p.1 else none)
  (epis, covered)

/-- `score_pi_for_greedy(pi, uncovered, covers)` from `cover.py`:
(new-coverage gain, dash count, minus literal count). -/
def score_pi_for_greedy (pi : String) (uncovered : List Nat)
    (covers : String → List Nat) : Nat × Nat × Int :=
  let cover_gain := ((covers pi).filter (fun i => uncovered.contains i)).length
  let dash_count := pi.data.countP (fun c => c = '-')
  let literal_count := pi.length - dash_count
  (cover_gain, dash_count, -(literal_count : Int))

/-- Python `>` on the score triples: lexicographic. -/
def tupGt (a b : Nat × Nat × Int) : Bool :=
  b.1 < a.1 || (a.1 = b.1 && (b.2.1 < a.2.1 || (a.2.1 = b.2.1 && b.2.2 < a.2.2)))

/-- One step of the best-candidate scan inside the greedy loop. -/
def bestStep (uncovered : List Nat) (covers : String → List Nat)
    (best : Option String × (Nat × Nat × Int)) (pi : String) :
    Option String × (Nat × Nat × Int) :=
  let sc := score_pi_for_greedy pi uncovered covers
  if tupGt sc best.2 then (some pi, sc) else best

/-- The best-candidate scan inside the greedy loop, starting from
`(None, (0, 0, 0))` and keeping the first strict improvement. -/
def findBest (remaining : List String) (uncovered : List Nat)
    (covers : String → List Nat) : Option String × (Nat × Nat × Int) :=
  remaining.foldl (bestStep uncovered covers) (none, (0, 0, 0))

theorem bestStep_eq (uncovered : List Nat) (covers : String → List Nat)
    (best : Option String × (Nat × Nat × Int)) (pi : String) :
    bestStep uncovered covers best pi =
      if tupGt (score_pi_for_greedy pi uncovered covers) best.2 then
        (some pi, score_pi_for_greedy pi uncovered covers)
      else best := rfl

theorem length_filter_ne_lt {a : String} {l : List String} (h : a ∈ l) :
    (l.filter (fun x => x ≠ a)).length < l.length :=
  List.length_filter_lt_length_iff_exists.mpr ⟨a, h, by simp⟩

theorem findBest_foldl_mem (uncovered : List Nat) (covers : String → List Nat)
    (y : String) :
    ∀ (l : List String) (init : Option String × (Nat × Nat × Int)),
      (l.foldl (bestStep uncovered covers) init).1 = some y →
      y ∈ l ∨ init.1 = some y := by
  intro l
  induction l with
  | nil =>
    intro init h
    exact Or.inr h
  | cons p ps ih =>
    intro init h
    simp only [List.foldl_cons] at h
    rcases ih _ h with hmem | hstep
    · exact Or.inl (List.mem_cons_of_mem _ hmem)
    · rw [bestStep_eq] at hstep
      by_cases hc : tupGt (score_pi_for_greedy p uncovered covers) init.2 = true
      · rw [if_pos hc] at hstep
        exact Or.inl (List.mem_cons.mpr (Or.inl (Option.some_injective _ hstep).symm))
      · rw [if_neg hc] at hstep
        exact Or.inr hstep

theorem findBest_mem {remaining : List String} {uncovered : List Nat}
    {covers : String → List Nat} {b : String} {sc : Nat × Nat × Int}
    (h : findBest remaining uncovered covers = (some b, sc)) : b ∈ remaining := by
  have := findBest_foldl_mem uncovered covers b remaining (none, (0, 0, 0))
    (by rw [findBest] at h; rw [h])
  rcases this with h1 | h2
  · exact h1
  · cases h2

/-- The `while uncovered:` loop of `greedy_complete_cover`: stop on an
empty uncovered set, a missing best candidate, or a zero-gain best;
otherwise select the best, shrink the uncovered set and the remaining
candidate list, and continue.  Terminates because each iteration removes
the selected element from `remaining`. -/
def greedyLoop (covers : String → List Nat) :
    List String → List String → List Nat → List String × List Nat
  | remaining, selected, uncovered =>
    if uncovered.isEmpty then (selected, uncovered)
    else
      match hfb : findBest remaining uncovered covers with
      | (none, _) => (selected, uncovered)
      | (some best_pi, best_score) =>
        if best_score.1 = 0 then (selected, uncovered)
        else
          greedyLoop covers (remaining.filter (fun pi => pi ≠ best_pi))
            (if selected.contains best_pi then selected else best_pi :: selected)
            (uncovered.filter (fun i => !(covers best_pi).contains i))
  termination_by remaining _ _ => remaining.length
  decreasing_by exact length_filter_ne_lt (findBest_mem hfb)

/-- `greedy_complete_cover(pis, covers, already_selected, all_on_indices)`
from `cover.py`.  The seed set and the initial uncovered subtraction of the
source are materialised, then the loop runs. -/
def greedy_complete_cover (pis : List String) (covers : String → List Nat)
    (already_selected : List String) (all_on_indices : List Nat) :
    List String × List Nat :=
  let selected := already_selected.dedup
  let uncovered := all_on_indices.filter (fun i => !selected.any (fun pi => (covers pi).contains i))
  let remaining := pis.filter (fun pi => !selected.contains pi)
  greedyLoop covers remaining selected uncovered

/-- Default variable names `x1 .. xN` used when the caller passes `None`. -/
def defaultVarNames (n : Nat) : List String :=
  (List.range n).map (fun i => "x" ++ toString (i + 1))

/-- `implicant_to_product_term(implicant, var_names)` from `cover.py`. -/
def implicant_to_product_term (implicant : String)
    (var_names : Option (List String)) : String :=
  let names := var_names.getD (defaultVarNames implicant.length)
  let terms := (implicant.data.zip names).filterMap (fun p =>
    if p.1 = '1' then some p.2
    else if p.1 = '0' then some (p.2 ++ "\x27")
    else none)
  if terms.isEmpty then "1" else String.join terms

/-- `build_sum_of_products(selected_pis, var_names)` from `cover.py`. -/
def build_sum_of_products (selected_pis : List String)
    (var_names : Option (List String)) : String :=
  if selected_pis.isEmpty then "0"
  else String.intercalate " + " (selected_pis.map (fun pi => implicant_to_product_term pi var_names))

/-- `cubes_for_espresso(selected_pis, n_outputs, which_output)` from
`cover.py`: each selected implicant with the output-indicator vector. -/
def cubes_for_espresso (selected_pis : List String) (n_outputs which_output : Nat) :
    List String :=
  selected_pis.map (fun pi =>
    pi ++ " " ++ String.mk ((List.replicate n_outputs '0').set which_output '1'))

/-- `select_cover_for_one_output` from `cover.py`, assembled from the
stage functions above (each stage mirrors one local of the source). -/
def select_cover_for_one_output (inputs outputs : List String) (which_output : Nat)
    (input_var_names : Option (List String)) :
    List String × List Nat × String × List String :=
  let pis := candidatePis inputs outputs which_output
  let on_indices := onIndices inputs outputs which_output
  let covers := coversFun inputs outputs which_output
  let table := mintermTable inputs outputs which_output
  let epis := (pick_epis table).1
  let gl := greedy_complete_cover pis covers epis on_indices
  let selected_pis := pySortedSet gl.1
  let sop := build_sum_of_products selected_pis input_var_names
  let cubes := cubes_for_espresso selected_pis (outputs.headD "").length which_output
  (selected_pis, gl.2, sop, cubes)

/-! ### Spec-side renderers (for the refinement claims)

The following definitions transcribe §4.4 of the specification document
word for word, independently of the source renderers, so that the
rendering claim can compare the two. -/

/-- Spec §4.4: does the implicant have a fixed position (within the
available variable names)?  If not, it renders as the multiplicative
identity term. -/
def hasFixedLiteral : List Char → List String → Bool
  | b :: bs, _ :: ns => b = '1' || b = '0' || hasFixedLiteral bs ns
  | _, _ => false

/-- Spec §4.4: for each fixed position emit the variable name for a fixed
`1` and the complemented name for a fixed `0`, skip don't-care positions,
concatenating with no separator. -/
def literalsCat : List Char → List String → String
  | b :: bs, n :: ns =>
    if b = '1' then n ++ literalsCat bs ns
    else if b = '0' then n ++ "\x27" ++ literalsCat bs ns
    else literalsCat bs ns
  | _, _ => ""

/-- Spec §4.4: the product term of an implicant — its concatenated
literals, or the multiplicative identity `1` when no fixed position
exists. -/
def productTermSpec (imp : String) (names : List String) : String :=
  if hasFixedLiteral imp.data names then literalsCat imp.data names else "1"

/-- Spec §4.4: join product terms with the plus separator. -/
def joinPlusSpec : List String → String
  | [] => ""
  | [t] => t
  | t :: ts => t ++ " + " ++ joinPlusSpec ts

/-- Spec §4.4: the sum-of-products of the ordered selection; an empty
selection renders as the additive identity `0`. -/
def sumOfProductsSpec (sel : List String) (names : Option (List String)) : String :=
  match sel with
  | [] => "0"
  | _ :: _ =>
    joinPlusSpec (sel.map (fun pi => productTermSpec pi (names.getD (defaultVarNames pi.length))))

/-! ### Characterization of `combine_if_one_bit_diff` -/

/-- At every paired position a don't-care on either side forces equality
(so a don't-care combines only with a don't-care). -/
def dashAgree (z : List (Char × Char)) : Prop :=
  ∀ p ∈ z, (p.1 = '-' ∨ p.2 = '-') → p.1 = p.2

instance (z : List (Char × Char)) : Decidable (dashAgree z) :=
  inferInstanceAs (Decidable (∀ p ∈ z, _))

/-- Number of paired positions whose characters differ. -/
def diffCount (z : List (Char × Char)) : Nat := z.countP (fun p => p.1 ≠ p.2)

/-- The common pattern with every differing position replaced by `'-'`. -/
def mergePattern (z : List (Char × Char)) : List Char :=
  z.map (fun p => if p.1 = p.2 then p.1 else '-')

theorem dashAgree_cons {p : Char × Char} {z : List (Char × Char)} :
    dashAgree (p :: z) ↔ ((p.1 = '-' ∨ p.2 = '-') → p.1 = p.2) ∧ dashAgree z :=
  List.forall_mem_cons

theorem diffCount_cons (p : Char × Char) (z : List (Char × Char)) :
    diffCount (p :: z) = (if p.1 = p.2 then 0 else 1) + diffCount z := by
  simp only [diffCount, List.countP_cons]
  by_cases h : p.1 = p.2 <;> simp [h] <;> omega

theorem combineLoop_cons (xa xb : Char) (rest : List (Char × Char))
    (diff : Nat) (out : List Char) :
    combineLoop ((xa, xb) :: rest) diff out =
      if xa = xb then combineLoop rest diff (out ++ [xa])
      else if xa = '-' ∨ xb = '-' then none
      else if diff + 1 > 1 then none
      else combineLoop rest (diff + 1) (out ++ ['-']) := by
  simp only [combineLoop, Bool.or_eq_true, decide_eq_true_eq]

theorem combineLoop_eq (z : List (Char × Char)) :
    ∀ (diff : Nat) (out : List Char), diff ≤ 1 →
      combineLoop z diff out =
        if dashAgree z ∧ diff + diffCount z ≤ 1 then
          some (diff + diffCount z, out ++ mergePattern z)
        else none := by
  induction z with
  | nil =>
    intro diff out hd
    simp [combineLoop, dashAgree, diffCount, mergePattern, hd]
  | cons p z ih =>
    intro diff out hd
    obtain ⟨xa, xb⟩ := p
    rw [combineLoop_cons]
    by_cases hxy : xa = xb
    · rw [if_pos hxy, ih diff (out ++ [xa]) hd]
      have hdash : ((xa, xb).1 = '-' ∨ (xa, xb).2 = '-') → (xa, xb).1 = (xa, xb).2 := fun _ => hxy
      have hdc : diffCount ((xa, xb) :: z) = diffCount z := by
        rw [diffCount_cons]; simp [hxy]
      have hmp : mergePattern ((xa, xb) :: z) = xa :: mergePattern z := by
        simp [mergePattern, hxy]
      rw [hdc, hmp]
      by_cases hcond : dashAgree z ∧ diff + diffCount z ≤ 1
      · rw [if_pos hcond, if_pos (show dashAgree ((xa, xb) :: z) ∧ diff + diffCount z ≤ 1 from
          ⟨dashAgree_cons.mpr ⟨hdash, hcond.1⟩, hcond.2⟩)]
        simp
      · rw [if_neg hcond, if_neg (fun h => hcond ⟨(dashAgree_cons.mp h.1).2, h.2⟩)]
    · rw [if_neg hxy]
      by_cases hdash : xa = '-' ∨ xb = '-'
      · rw [if_pos hdash]
        rw [if_neg (fun h => hxy ((dashAgree_cons.mp h.1).1 hdash))]
      · rw [if_neg hdash]
        have hdc : diffCount ((xa, xb) :: z) = 1 + diffCount z := by
          rw [diffCount_cons]; simp [hxy]
        have hmp : mergePattern ((xa, xb) :: z) = '-' :: mergePattern z := by
          simp [mergePattern, hxy]
        rw [hdc, hmp]
        by_cases hdiff1 : diff = 1
        · rw [if_pos (by omega), if_neg (by omega)]
        · have hdiff0 : diff = 0 := by omega
          subst hdiff0
          rw [if_neg (by omega)]
          rw [ih 1 (out ++ ['-']) (by omega)]
          have hda : dashAgree ((xa, xb) :: z) ↔ dashAgree z := by
            rw [dashAgree_cons]
            constructor
            · exact fun h => h.2
            · exact fun h => ⟨fun hc => absurd hc hdash, h⟩
          by_cases hcond : dashAgree z ∧ 1 + diffCount z ≤ 1
          · rw [if_pos hcond, if_pos (show dashAgree ((xa, xb) :: z) ∧ 0 + (1 + diffCount z) ≤ 1 from
              ⟨hda.mpr hcond.1, by omega⟩)]
            simp
          · rw [if_neg hcond, if_neg (fun h => hcond ⟨hda.mp h.1, by omega⟩)]

theorem combine_eq (a b : String) :
    combine_if_one_bit_diff a b =
      if dashAgree (a.data.zip b.data) ∧ diffCount (a.data.zip b.data) = 1 then
        some (String.mk (mergePattern (a.data.zip b.data)))
      else none := by
  rw [combine_if_one_bit_diff, combineLoop_eq (a.data.zip b.data) 0 [] (by omega)]
  by_cases hda : dashAgree (a.data.zip b.data)
  · by_cases hdc : diffCount (a.data.zip b.data) = 1
    · rw [if_pos ⟨hda, by omega⟩, if_pos ⟨hda, hdc⟩]
      simp [hdc]
    · by_cases hle : diffCount (a.data.zip b.data) ≤ 1
      · rw [if_pos ⟨hda, by omega⟩, if_neg (fun h => hdc h.2)]
        simp [hdc]
      · rw [if_neg (fun h => hle (by omega)), if_neg (fun h => hdc h.2)]
  · rw [if_neg (fun h => hda h.1), if_neg (fun h => hda h.1)]

/-! ### Fixed-position counting and termination of the level loop -/

theorem countP_zip_fst_le (q : Char → Bool) :
    ∀ (l1 l2 : List Char), (l1.zip l2).countP (fun p => q p.1) ≤ l1.countP q := by
  intro l1
  induction l1 with
  | nil => intro l2; simp
  | cons x xs ih =>
    intro l2
    cases l2 with
    | nil => simp
    | cons y ys =>
      simp only [List.zip_cons_cons, List.countP_cons]
      have := ih ys
      by_cases hq : q x <;> simp [hq] <;> omega

theorem countP_split_fst (z : List (Char × Char)) (hda : dashAgree z) :
    z.countP (fun p => p.1 ≠ '-') =
      z.countP (fun p => (if p.1 = p.2 then p.1 else '-') ≠ '-') + diffCount z := by
  induction z with
  | nil => simp [diffCount]
  | cons p z ih =>
    have hz : dashAgree z := (dashAgree_cons.mp hda).2
    have hp := (dashAgree_cons.mp hda).1
    rw [diffCount_cons]
    by_cases he : p.1 = p.2
    · simp only [List.countP_cons, if_pos he]
      rw [ih hz]
      by_cases h1 : p.1 = '-' <;> simp [h1, he] <;> omega
    · have h1 : ¬(p.1 = '-') := fun hc => he (hp (Or.inl hc))
      simp only [List.countP_cons, if_neg he]
      rw [ih hz]
      simp [h1, he]
      omega

theorem countP_split_snd (z : List (Char × Char)) (hda : dashAgree z) :
    z.countP (fun p => p.2 ≠ '-') =
      z.countP (fun p => (if p.1 = p.2 then p.1 else '-') ≠ '-') + diffCount z := by
  induction z with
  | nil => simp [diffCount]
  | cons p z ih =>
    have hz : dashAgree z := (dashAgree_cons.mp hda).2
    have hp := (dashAgree_cons.mp hda).1
    rw [diffCount_cons]
    by_cases he : p.1 = p.2
    · simp only [List.countP_cons, if_pos he]
      rw [ih hz]
      by_cases h1 : p.2 = '-' <;> simp [h1, he, he ▸ h1] <;> omega
    · have h1 : ¬(p.2 = '-') := fun hc => he (hp (Or.inr hc))
      simp only [List.countP_cons, if_neg he]
      rw [ih hz]
      simp [h1, he]
      omega

theorem fixedCount_mergePattern (z : List (Char × Char)) :
    fixedCount (String.mk (mergePattern z)) =
      z.countP (fun p => (if p.1 = p.2 then p.1 else '-') ≠ '-') := by
  show (mergePattern z).countP (fun c => c ≠ '-') = _
  rw [mergePattern, List.countP_map]
  rfl

theorem combine_some_parts {a b c : String}
    (h : combine_if_one_bit_diff a b = some c) :
    dashAgree (a.data.zip b.data) ∧ diffCount (a.data.zip b.data) = 1 ∧
      c = String.mk (mergePattern (a.data.zip b.data)) := by
  rw [combine_eq] at h
  by_cases hc : dashAgree (a.data.zip b.data) ∧ diffCount (a.data.zip b.data) = 1
  · rw [if_pos hc] at h
    exact ⟨hc.1, hc.2, (Option.some_injective _ h).symm⟩
  · rw [if_neg hc] at h
    cases h

theorem combine_fixedCount_lt {a b c : String}
    (h : combine_if_one_bit_diff a b = some c) :
    fixedCount c + 1 ≤ fixedCount a := by
  obtain ⟨hda, hdc, hcv⟩ := combine_some_parts h
  rw [hcv, fixedCount_mergePattern]
  have hsplit := countP_split_fst (a.data.zip b.data) hda
  rw [hdc] at hsplit
  have hle := countP_zip_fst_le (fun ch => ch ≠ '-') a.data b.data
  unfold fixedCount
  omega

theorem combine_fixedCount_exact {a b c : String} (hab : a.length = b.length)
    (h : combine_if_one_bit_diff a b = some c) :
    fixedCount c + 1 = fixedCount a ∧ fixedCount c + 1 = fixedCount b := by
  obtain ⟨hda, hdc, hcv⟩ := combine_some_parts h
  rw [hcv, fixedCount_mergePattern]
  have hf := countP_split_fst (a.data.zip b.data) hda
  have hs := countP_split_snd (a.data.zip b.data) hda
  rw [hdc] at hf hs
  have hmf : (a.data.zip b.data).countP (fun p => p.1 ≠ '-') = a.data.countP (fun ch => ch ≠ '-') := by
    have h2 : (a.data.zip b.data).map Prod.fst = a.data :=
      List.map_fst_zip a.data b.data (le_of_eq hab)
    calc (a.data.zip b.data).countP (fun p => p.1 ≠ '-')
        = ((a.data.zip b.data).map Prod.fst).countP (fun ch => ch ≠ '-') := by
          rw [List.countP_map]; rfl
      _ = a.data.countP (fun ch => ch ≠ '-') := by rw [h2]
  have hms : (a.data.zip b.data).countP (fun p => p.2 ≠ '-') = b.data.countP (fun ch => ch ≠ '-') := by
    have h2 : (a.data.zip b.data).map Prod.snd = b.data :=
      List.map_snd_zip a.data b.data (le_of_eq hab.symm)
    calc (a.data.zip b.data).countP (fun p => p.2 ≠ '-')
        = ((a.data.zip b.data).map Prod.snd).countP (fun ch => ch ≠ '-') := by
          rw [List.countP_map]; rfl
      _ = b.data.countP (fun ch => ch ≠ '-') := by rw [h2]
  unfold fixedCount
  omega

theorem mem_pySortedSet {x : String} {l : List String} : x ∈ pySortedSet l ↔ x ∈ l := by
  unfold pySortedSet pySorted
  rw [(List.perm_insertionSort pyLe l.dedup).mem_iff, List.mem_dedup]

theorem mem_pySorted {x : String} {l : List String} : x ∈ pySorted l ↔ x ∈ l := by
  unfold pySorted
  exact (List.perm_insertionSort pyLe l).mem_iff

theorem pairsOf_mem {x y : String} : ∀ {l : List String}, (x, y) ∈ pairsOf l → x ∈ l ∧ y ∈ l := by
  intro l
  induction l with
  | nil => intro h; cases h
  | cons a as ih =>
    intro h
    rcases List.mem_append.mp h with h1 | h1
    · rcases List.mem_map.mp h1 with ⟨q, hq, he⟩
      obtain ⟨rfl, rfl⟩ := Prod.mk.injEq .. ▸ And.intro (congrArg Prod.fst he) (congrArg Prod.snd he)
      exact ⟨List.mem_cons_self _ _, List.mem_cons_of_mem _ hq⟩
    · obtain ⟨hx, hy⟩ := ih h1
      exact ⟨List.mem_cons_of_mem _ hx, List.mem_cons_of_mem _ hy⟩

theorem group_once_new_mem {t : String} {terms : List String}
    (h : t ∈ (group_once terms).1) :
    ∃ x y, x ∈ terms ∧ y ∈ terms ∧ combine_if_one_bit_diff x y = some t := by
  unfold group_once at h
  simp only at h
  rw [mem_pySortedSet] at h
  rcases List.mem_filterMap.mp h with ⟨p, hp, hc⟩
  have hmem := pairsOf_mem hp
  have hperm := List.perm_insertionSort (fun a b => count1 a ≤ count1 b) terms
  exact ⟨p.1, p.2, hperm.mem_iff.mp hmem.1, hperm.mem_iff.mp hmem.2, hc⟩

theorem maxFixed_nil : maxFixed [] = 0 := rfl

theorem maxFixed_cons (x : String) (xs : List String) :
    maxFixed (x :: xs) = max (fixedCount x) (maxFixed xs) := rfl

theorem fixedCount_le_maxFixed {a : String} : ∀ {l : List String}, a ∈ l → fixedCount a ≤ maxFixed l := by
  intro l
  induction l with
  | nil => intro h; cases h
  | cons x xs ih =>
    intro h
    rw [maxFixed_cons]
    rcases List.mem_cons.mp h with rfl | hm
    · exact Nat.le_max_left _ _
    · exact le_trans (ih hm) (Nat.le_max_right _ _)

theorem maxFixed_lt_of_forall {m : Nat} : ∀ {l : List String},
    (∀ t ∈ l, fixedCount t < m) → 0 < m → maxFixed l < m := by
  intro l
  induction l with
  | nil => intro _ hm; rw [maxFixed_nil]; exact hm
  | cons x xs ih =>
    intro h hm
    have h1 : fixedCount x < m := h x (List.mem_cons_self _ _)
    have h2 : maxFixed xs < m := ih (fun t ht => h t (List.mem_cons_of_mem _ ht)) hm
    rw [maxFixed_cons]
    exact Nat.max_lt.mpr ⟨h1, h2⟩

theorem maxFixed_le_of_forall {m : Nat} : ∀ {l : List String},
    (∀ t ∈ l, fixedCount t ≤ m) → maxFixed l ≤ m := by
  intro l
  induction l with
  | nil => intro _; rw [maxFixed_nil]; exact Nat.zero_le m
  | cons x xs ih =>
    intro h
    have h1 := h x (List.mem_cons_self _ _)
    have h2 := ih (fun t ht => h t (List.mem_cons_of_mem _ ht))
    rw [maxFixed_cons]
    exact Nat.max_le.mpr ⟨h1, h2⟩

theorem qmLoop_isSome : ∀ (fuel : Nat) (current acc : List String),
    maxFixed current < fuel → (qmLoop fuel current acc).isSome := by
  intro fuel
  induction fuel with
  | zero => intro current acc h; omega
  | succ fuel ih =>
    intro current acc h
    simp only [qmLoop]
    by_cases hnew : (group_once current).1 = []
    · rw [if_pos hnew]
      rfl
    · rw [if_neg hnew]
      apply ih
      have hlt : ∀ t ∈ (group_once current).1, fixedCount t < maxFixed current := by
        intro t ht
        obtain ⟨x, _, hx, _, hc⟩ := group_once_new_mem ht
        have := combine_fixedCount_lt hc
        have := fixedCount_le_maxFixed hx
        omega
      have hpos : 0 < maxFixed current := by
        obtain ⟨t, ht⟩ := List.exists_mem_of_ne_nil _ hnew
        have := hlt t ht
        omega
      have := maxFixed_lt_of_forall hlt hpos
      omega

/-! ### The code-point order on strings -/

theorem char_eq_of_toNat_eq {a b : Char} (h : a.toNat = b.toNat) : a = b :=
  Char.ext (UInt32.ext h)

theorem strLtB_irrefl : ∀ l : List Char, strLtB l l = false := by
  intro l
  induction l with
  | nil => rfl
  | cons a as ih =>
    simp [strLtB, charLt, ih]

theorem strLtB_trans : ∀ {a b c : List Char},
    strLtB a b = true → strLtB b c = true → strLtB a c = true := by
  intro a
  induction a with
  | nil =>
    intro b c hab hbc
    cases b with
    | nil => cases hab
    | cons y ys =>
      cases c with
      | nil => cases hbc
      | cons z zs => rfl
  | cons x xs ih =>
    intro b c hab hbc
    cases b with
    | nil => cases hab
    | cons y ys =>
      cases c with
      | nil => cases hbc
      | cons z zs =>
        simp only [strLtB, Bool.or_eq_true, Bool.and_eq_true, decide_eq_true_eq] at hab hbc ⊢
        rcases hab with h1 | ⟨he1, h1⟩
        · rcases hbc with h2 | ⟨he2, h2⟩
          · exact Or.inl (by unfold charLt at *; simp only [decide_eq_true_eq] at *; omega)
          · subst he2; exact Or.inl h1
        · subst he1
          rcases hbc with h2 | ⟨he2, h2⟩
          · exact Or.inl h2
          · subst he2; exact Or.inr ⟨rfl, ih h1 h2⟩

theorem strLtB_eq_of_not : ∀ {a b : List Char},
    strLtB a b = false → strLtB b a = false → a = b := by
  intro a
  induction a with
  | nil =>
    intro b hab _
    cases b with
    | nil => rfl
    | cons y ys => cases hab
  | cons x xs ih =>
    intro b hab hba
    cases b with
    | nil => cases hba
    | cons y ys =>
      have h1 := Bool.or_eq_false_iff.mp hab
      have h2 := Bool.or_eq_false_iff.mp hba
      have hxy : x = y := char_eq_of_toNat_eq (by
        have e1 : decide (x.toNat < y.toNat) = false := h1.1
        have e2 : decide (y.toNat < x.toNat) = false := h2.1
        simp only [decide_eq_false_iff_not] at e1 e2
        omega)
      subst hxy
      have hdx : decide (x = x) = true := by simp
      have h3 := Bool.and_eq_false_iff.mp h1.2
      rcases h3 with h3 | h3
      · rw [hdx] at h3
        cases h3
      · have h4 := Bool.and_eq_false_iff.mp h2.2
        rcases h4 with h4 | h4
        · rw [hdx] at h4
          cases h4
        · rw [ih h3 h4]

theorem strLtB_asymm {a b : List Char} (h : strLtB a b = true) : strLtB b a = false := by
  by_contra hc
  have h2 : strLtB b a = true := by
    cases hb : strLtB b a
    · exact absurd hb hc
    · rfl
  have := strLtB_trans h h2
  rw [strLtB_irrefl] at this
  cases this

instance : IsTotal String pyLe := by
  constructor
  intro a b
  cases h : strLtB b.data a.data
  · exact Or.inl h
  · exact Or.inr (strLtB_asymm h)

instance : IsTrans String pyLe := by
  constructor
  intro a b c hab hbc
  show strLtB c.data a.data = false
  have hba : strLtB b.data a.data = false := hab
  have hcb : strLtB c.data b.data = false := hbc
  cases hca : strLtB c.data a.data
  · rfl
  · exfalso
    cases hab2 : strLtB a.data b.data
    · have heq : a.data = b.data := strLtB_eq_of_not hab2 hba
      rw [← heq] at hcb
      rw [hcb] at hca
      cases hca
    · cases hbc2 : strLtB b.data c.data
      · have heq : b.data = c.data := strLtB_eq_of_not hbc2 hcb
        rw [← heq] at hca
        rw [hba] at hca
        cases hca
      · have hac := strLtB_trans hab2 hbc2
        have hcc := strLtB_trans hca hac
        rw [strLtB_irrefl] at hcc
        cases hcc

theorem pySortedSet_nodup (l : List String) : (pySortedSet l).Nodup :=
  (List.perm_insertionSort pyLe l.dedup).nodup_iff.mpr (List.nodup_dedup l)

theorem pySortedSet_sorted_lt (l : List String) :
    (pySortedSet l).Pairwise (fun a b => pyLt a b = true) := by
  have hs : (pySortedSet l).Pairwise pyLe :=
    List.sorted_insertionSort pyLe l.dedup
  have hn : (pySortedSet l).Pairwise (fun a b : String => a ≠ b) := pySortedSet_nodup l
  refine (hs.and hn).imp ?_
  intro a b hab
  obtain ⟨hle, hne⟩ := hab
  have hble : strLtB b.data a.data = false := hle
  show strLtB a.data b.data = true
  cases h : strLtB a.data b.data
  · exact absurd (String.ext (strLtB_eq_of_not h hble)) hne
  · rfl

/-! ### The enumeration dictionary -/

theorem contains_iff {l : List String} {x : String} : l.contains x = true ↔ x ∈ l :=
  List.elem_iff

theorem contains_iff_nat {l : List Nat} {x : Nat} : l.contains x = true ↔ x ∈ l :=
  List.elem_iff

theorem dictUpdate_invariant {P : String × Nat → Prop} {d : List (String × Nat)}
    (hd : ∀ p ∈ d, P p) {k : String} {v : Nat} (hkv : P (k, v)) :
    ∀ p ∈ dictUpdate d k v, P p := by
  intro p hp
  unfold dictUpdate at hp
  by_cases hc : d.any (fun p => p.1 = k) = true
  · rw [if_pos hc] at hp
    rcases List.mem_map.mp hp with ⟨q, hq, he⟩
    by_cases hqk : q.1 = k
    · rw [if_pos hqk] at he
      rw [← he]
      exact hkv
    · rw [if_neg hqk] at he
      rw [← he]
      exact hd q hq
  · rw [if_neg hc] at hp
    rcases List.mem_append.mp hp with h1 | h1
    · exact hd p h1
    · rw [List.mem_singleton.mp h1]
      exact hkv

theorem foldl_dictUpdate_invariant {P : String × Nat → Prop} :
    ∀ (l : List (Nat × String)) (d : List (String × Nat)),
      (∀ p ∈ d, P p) → (∀ q ∈ l, P (q.2, q.1)) →
      ∀ p ∈ l.foldl (fun d q => dictUpdate d q.2 q.1) d, P p := by
  intro l
  induction l with
  | nil => intro d hd _ p hp; exact hd p hp
  | cons q l ih =>
    intro d hd hl p hp
    simp only [List.foldl_cons] at hp
    exact ih (dictUpdate d q.2 q.1)
      (dictUpdate_invariant hd (hl q (List.mem_cons_self _ _)))
      (fun r hr => hl r (List.mem_cons_of_mem _ hr)) p hp

/-- Every pair stored in the enumeration dictionary is a genuine
(index, value) pair of the input list. -/
theorem idx_by_bits_invariant (inputs : List String) :
    ∀ p ∈ idx_by_bits inputs, inputs.getD p.2 "" = p.1 := by
  unfold idx_by_bits withIdx
  apply foldl_dictUpdate_invariant
  · intro p hp; cases hp
  · intro q hq
    have h := List.mem_enum_iff_getElem?.mp hq
    rw [List.getD_eq_getElem?_getD, h]
    rfl

theorem mem_dictUpdate_self (d : List (String × Nat)) (k : String) (v : Nat) :
    (k, v) ∈ dictUpdate d k v := by
  unfold dictUpdate
  by_cases hc : d.any (fun p => p.1 = k) = true
  · rw [if_pos hc]
    rcases List.any_eq_true.mp hc with ⟨q, hq, hqk⟩
    simp only [decide_eq_true_eq] at hqk
    exact List.mem_map.mpr ⟨q, hq, by rw [if_pos hqk]⟩
  · rw [if_neg hc]
    exact List.mem_append.mpr (Or.inr (List.mem_singleton.mpr rfl))

theorem mem_dictUpdate_other {d : List (String × Nat)} {b : String} {w : Nat}
    (hb : (b, w) ∈ d) (k : String) (v : Nat) :
    ∃ w', (b, w') ∈ dictUpdate d k v := by
  unfold dictUpdate
  by_cases hbk : b = k
  · subst hbk
    by_cases hc : d.any (fun p => p.1 = b) = true
    · rw [if_pos hc]
      exact ⟨v, List.mem_map.mpr ⟨(b, w), hb, by rw [if_pos rfl]⟩⟩
    · rw [if_neg hc]
      exact ⟨v, List.mem_append.mpr (Or.inr (List.mem_singleton.mpr rfl))⟩
  · by_cases hc : d.any (fun p => p.1 = k) = true
    · rw [if_pos hc]
      exact ⟨w, List.mem_map.mpr ⟨(b, w), hb, by rw [if_neg hbk]⟩⟩
    · rw [if_neg hc]
      exact ⟨w, List.mem_append.mpr (Or.inl hb)⟩

theorem foldl_dictUpdate_key :
    ∀ (l : List (Nat × String)) (d : List (String × Nat)) (b : String),
      ((∃ w, (b, w) ∈ d) ∨ ∃ i, (i, b) ∈ l) →
      ∃ w, (b, w) ∈ l.foldl (fun d q => dictUpdate d q.2 q.1) d := by
  intro l
  induction l with
  | nil =>
    intro d b h
    rcases h with h | ⟨i, hi⟩
    · exact h
    · cases hi
  | cons q l ih =>
    intro d b h
    simp only [List.foldl_cons]
    rcases h with ⟨w, hw⟩ | ⟨i, hi⟩
    · exact ih _ b (Or.inl (mem_dictUpdate_other hw q.2 q.1))
    · rcases List.mem_cons.mp hi with he | hmem
      · have hq2 : q.2 = b := by rw [← he]
        refine ih _ b (Or.inl ⟨q.1, ?_⟩)
        rw [← hq2]
        exact mem_dictUpdate_self d q.2 q.1
      · exact ih _ b (Or.inr ⟨i, hmem⟩)

theorem idx_by_bits_key {inputs : List String} {b : String} (hb : b ∈ inputs) :
    ∃ v, (b, v) ∈ idx_by_bits inputs := by
  unfold idx_by_bits withIdx
  apply foldl_dictUpdate_key
  right
  rcases List.mem_iff_get.mp hb with ⟨n, hn⟩
  refine ⟨n.1, List.mem_enum_iff_getElem?.mpr ?_⟩
  rw [← hn]
  exact (List.getElem?_eq_some.mpr ⟨n.2, rfl⟩)

theorem lookup_mem : ∀ {d : List (String × Nat)} {b : String} {v : Nat},
    d.lookup b = some v → (b, v) ∈ d := by
  intro d
  induction d with
  | nil => intro b v h; cases h
  | cons p rest ih =>
    intro b v h
    rw [List.lookup] at h
    cases hbk : b == p.1 with
    | true =>
      rw [hbk] at h
      have h2 : some p.2 = some v := h
      have hb : b = p.1 := eq_of_beq hbk
      have hv : p.2 = v := Option.some_injective _ h2
      rw [hb, ← hv]
      exact List.mem_cons_self _ _
    | false =>
      rw [hbk] at h
      have h2 : rest.lookup b = some v := h
      exact List.mem_cons_of_mem _ (ih h2)

theorem lookup_isSome : ∀ {d : List (String × Nat)} {b : String} {v : Nat},
    (b, v) ∈ d → (d.lookup b).isSome := by
  intro d
  induction d with
  | nil => intro b v h; cases h
  | cons p rest ih =>
    intro b v h
    rw [List.lookup]
    cases hbk : b == p.1 with
    | true => rfl
    | false =>
      show (rest.lookup b).isSome = true
      rcases List.mem_cons.mp h with he | hmem
      · have hb : b = p.1 := by rw [← he]
        rw [hb] at hbk
        rw [beq_self_eq_true] at hbk
        cases hbk
      · exact ih hmem

/-- Every onset index (as `Python`'s `idx_by_bits[b]` computes it) is a
stored dictionary value whose key is the onset term itself. -/
theorem idxOfBits_mem {inputs : List String} {b : String} (hb : b ∈ inputs) :
    (b, idxOfBits inputs b) ∈ idx_by_bits inputs := by
  obtain ⟨v, hv⟩ := idx_by_bits_key hb
  have hs := lookup_isSome hv
  unfold idxOfBits
  rcases ho : (idx_by_bits inputs).lookup b with _ | w
  · rw [ho] at hs; cases hs
  · exact lookup_mem ho

/-! ### The greedy scan and loop -/

theorem tupGt_iff (a b : Nat × Nat × Int) :
    tupGt a b = true ↔
      (b.1 < a.1 ∨ (a.1 = b.1 ∧ (b.2.1 < a.2.1 ∨ (a.2.1 = b.2.1 ∧ b.2.2 < a.2.2)))) := by
  unfold tupGt
  simp only [Bool.or_eq_true, Bool.and_eq_true, decide_eq_true_eq]

theorem tupGt_irrefl (a : Nat × Nat × Int) : tupGt a a = false := by
  rw [Bool.eq_false_iff, Ne, tupGt_iff]
  omega

theorem tupGt_neg_trans {a b c : Nat × Nat × Int}
    (h1 : tupGt a b = false) (h2 : tupGt b c = false) : tupGt a c = false := by
  rw [Bool.eq_false_iff, Ne, tupGt_iff] at h1 h2 ⊢
  omega

theorem tupGt_chain {s i r : Nat × Nat × Int}
    (h1 : tupGt s i = true) (h2 : tupGt s r = false) : tupGt i r = false := by
  rw [tupGt_iff] at h1
  rw [Bool.eq_false_iff, Ne, tupGt_iff] at h2 ⊢
  omega

theorem foldl_best_snd_mono (uncovered : List Nat) (covers : String → List Nat) :
    ∀ (l : List String) (init : Option String × (Nat × Nat × Int)),
      tupGt init.2 (l.foldl (bestStep uncovered covers) init).2 = false := by
  intro l
  induction l with
  | nil => intro init; exact tupGt_irrefl _
  | cons p ps ih =>
    intro init
    simp only [List.foldl_cons]
    rw [bestStep_eq]
    by_cases hc : tupGt (score_pi_for_greedy p uncovered covers) init.2 = true
    · rw [if_pos hc]
      exact tupGt_chain hc (ih (some p, score_pi_for_greedy p uncovered covers))
    · rw [if_neg hc]
      exact ih init

theorem foldl_best_max (uncovered : List Nat) (covers : String → List Nat) :
    ∀ (l : List String) (init : Option String × (Nat × Nat × Int)) (q : String), q ∈ l →
      tupGt (score_pi_for_greedy q uncovered covers)
        (l.foldl (bestStep uncovered covers) init).2 = false := by
  intro l
  induction l with
  | nil => intro init q hq; cases hq
  | cons p ps ih =>
    intro init q hq
    simp only [List.foldl_cons]
    rw [bestStep_eq]
    rcases List.mem_cons.mp hq with rfl | hmem
    · by_cases hc : tupGt (score_pi_for_greedy q uncovered covers) init.2 = true
      · rw [if_pos hc]
        exact foldl_best_snd_mono uncovered covers ps _
      · rw [if_neg hc]
        have hb : tupGt (score_pi_for_greedy q uncovered covers) init.2 = false := by
          cases h : tupGt (score_pi_for_greedy q uncovered covers) init.2
          · rfl
          · exact absurd h hc
        exact tupGt_neg_trans hb (foldl_best_snd_mono uncovered covers ps init)
    · by_cases hc : tupGt (score_pi_for_greedy p uncovered covers) init.2 = true
      · rw [if_pos hc]
        exact ih _ q hmem
      · rw [if_neg hc]
        exact ih init q hmem

theorem foldl_best_score (uncovered : List Nat) (covers : String → List Nat) :
    ∀ (l : List String) (init : Option String × (Nat × Nat × Int)),
      (∀ x, init.1 = some x → init.2 = score_pi_for_greedy x uncovered covers) →
      ∀ x, (l.foldl (bestStep uncovered covers) init).1 = some x →
        (l.foldl (bestStep uncovered covers) init).2 = score_pi_for_greedy x uncovered covers := by
  intro l
  induction l with
  | nil => intro init hinit x hx; exact hinit x hx
  | cons p ps ih =>
    intro init hinit x hx
    simp only [List.foldl_cons] at hx ⊢
    rw [bestStep_eq] at hx ⊢
    by_cases hc : tupGt (score_pi_for_greedy p uncovered covers) init.2 = true
    · rw [if_pos hc] at hx ⊢
      refine ih _ ?_ x hx
      intro y hy
      rw [Option.some_injective _ hy]
    · rw [if_neg hc] at hx ⊢
      exact ih init hinit x hx

/-- Soundness of the best-candidate scan: when it returns a candidate, the
reported score is the candidate's score and no remaining candidate scores
strictly higher (in the Python tuple order). -/
theorem findBest_spec {remaining : List String} {uncovered : List Nat}
    {covers : String → List Nat} {b : String} {sc : Nat × Nat × Int}
    (h : findBest remaining uncovered covers = (some b, sc)) :
    sc = score_pi_for_greedy b uncovered covers ∧
      ∀ q ∈ remaining, tupGt (score_pi_for_greedy q uncovered covers) sc = false := by
  constructor
  · have := foldl_best_score uncovered covers remaining (none, (0, 0, 0))
      (fun x hx => by cases hx) b (by rw [findBest] at h; rw [h])
    rw [findBest] at h
    rw [h] at this
    exact this
  · intro q hq
    have := foldl_best_max uncovered covers remaining (none, (0, 0, 0)) q hq
    rw [findBest] at h
    rw [h] at this
    exact this

theorem greedyLoop_eq_empty (covers : String → List Nat)
    (r s : List String) (u : List Nat) (hemp : u.isEmpty = true) :
    greedyLoop covers r s u = (s, u) := by
  rw [greedyLoop, if_pos hemp]

theorem greedyLoop_eq_none (covers : String → List Nat)
    {r : List String} (s : List String) {u : List Nat} {sc : Nat × Nat × Int}
    (hemp : ¬u.isEmpty = true) (hfb : findBest r u covers = (none, sc)) :
    greedyLoop covers r s u = (s, u) := by
  rw [greedyLoop, if_neg hemp]
  split
  · rfl
  · next b sc2 heq =>
    rw [hfb] at heq
    cases heq

theorem greedyLoop_eq_zero (covers : String → List Nat)
    {r : List String} (s : List String) {u : List Nat} {b : String} {sc : Nat × Nat × Int}
    (hemp : ¬u.isEmpty = true) (hfb : findBest r u covers = (some b, sc))
    (hz : sc.1 = 0) :
    greedyLoop covers r s u = (s, u) := by
  rw [greedyLoop, if_neg hemp]
  split
  · next sc2 heq =>
    rfl
  · next b2 sc2 heq =>
    rw [hfb] at heq
    rw [Prod.mk.injEq] at heq
    obtain ⟨h1, h2⟩ := heq
    have hb : b = b2 := Option.some_injective _ h1
    subst hb
    subst h2
    rw [if_pos hz]

theorem greedyLoop_eq_step (covers : String → List Nat)
    {r : List String} (s : List String) {u : List Nat} {b : String} {sc : Nat × Nat × Int}
    (hemp : ¬u.isEmpty = true) (hfb : findBest r u covers = (some b, sc))
    (hz : ¬sc.1 = 0) :
    greedyLoop covers r s u =
      greedyLoop covers (r.filter (fun pi => pi ≠ b))
        (if s.contains b then s else b :: s)
        (u.filter (fun i => !(covers b).contains i)) := by
  rw [greedyLoop, if_neg hemp]
  split
  · next sc2 heq =>
    rw [hfb] at heq
    cases heq
  · next b2 sc2 heq =>
    rw [hfb] at heq
    rw [Prod.mk.injEq] at heq
    obtain ⟨h1, h2⟩ := heq
    have hb : b = b2 := Option.some_injective _ h1
    subst hb
    subst h2
    rw [if_neg hz]

theorem greedyLoop_sel_mono (covers : String → List Nat) :
    ∀ (r s : List String) (u : List Nat) (x : String),
      x ∈ s → x ∈ (greedyLoop covers r s u).1 := by
  intro r s u
  induction r, s, u using greedyLoop.induct covers with
  | case1 r s u hemp =>
    intro x hx
    rw [greedyLoop_eq_empty covers r s u hemp]
    exact hx
  | case2 r s u hemp sc hfb =>
    intro x hx
    rw [greedyLoop_eq_none covers s hemp hfb]
    exact hx
  | case3 r s u hemp b sc hfb hz =>
    intro x hx
    rw [greedyLoop_eq_zero covers s hemp hfb hz]
    exact hx
  | case4 r s u hemp b sc hfb hz ih =>
    intro x hx
    rw [greedyLoop_eq_step covers s hemp hfb hz]
    apply ih
    by_cases hcont : s.contains b
    · rw [dif_pos hcont]; exact hx
    · rw [dif_neg hcont]; exact List.mem_cons_of_mem _ hx

theorem greedyLoop_sel_sub (covers : String → List Nat) :
    ∀ (r s : List String) (u : List Nat) (x : String),
      x ∈ (greedyLoop covers r s u).1 → x ∈ s ∨ x ∈ r := by
  intro r s u
  induction r, s, u using greedyLoop.induct covers with
  | case1 r s u hemp =>
    intro x hx
    rw [greedyLoop_eq_empty covers r s u hemp] at hx
    exact Or.inl hx
  | case2 r s u hemp sc hfb =>
    intro x hx
    rw [greedyLoop_eq_none covers s hemp hfb] at hx
    exact Or.inl hx
  | case3 r s u hemp b sc hfb hz =>
    intro x hx
    rw [greedyLoop_eq_zero covers s hemp hfb hz] at hx
    exact Or.inl hx
  | case4 r s u hemp b sc hfb hz ih =>
    intro x hx
    rw [greedyLoop_eq_step covers s hemp hfb hz] at hx
    rcases ih x hx with h1 | h1
    · by_cases hcont : s.contains b
      · rw [dif_pos hcont] at h1
        exact Or.inl h1
      · rw [dif_neg hcont] at h1
        rcases List.mem_cons.mp h1 with rfl | h2
        · exact Or.inr (findBest_mem hfb)
        · exact Or.inl h2
    · exact Or.inr (List.mem_of_mem_filter h1)

theorem greedyLoop_cover (covers : String → List Nat) :
    ∀ (r s : List String) (u : List Nat) (i : Nat),
      (i ∈ u ∨ ∃ p ∈ s, i ∈ covers p) →
      i ∈ (greedyLoop covers r s u).2 ∨
        ∃ p ∈ (greedyLoop covers r s u).1, i ∈ covers p := by
  intro r s u
  induction r, s, u using greedyLoop.induct covers with
  | case1 r s u hemp =>
    intro i hi
    rw [greedyLoop_eq_empty covers r s u hemp]
    exact hi
  | case2 r s u hemp sc hfb =>
    intro i hi
    rw [greedyLoop_eq_none covers s hemp hfb]
    exact hi
  | case3 r s u hemp b sc hfb hz =>
    intro i hi
    rw [greedyLoop_eq_zero covers s hemp hfb hz]
    exact hi
  | case4 r s u hemp b sc hfb hz ih =>
    intro i hi
    rw [greedyLoop_eq_step covers s hemp hfb hz]
    apply ih
    have hbsel : b ∈ (if s.contains b then s else b :: s) := by
      by_cases hcont : s.contains b
      · rw [if_pos hcont]
        exact contains_iff.mp hcont
      · rw [if_neg hcont]
        exact List.mem_cons_self _ _
    have hbsel2 : b ∈ (if _h : s.contains b then s else b :: s) := hbsel
    rcases hi with hu | ⟨p, hp, hip⟩
    · by_cases hib : i ∈ covers b
      · exact Or.inr ⟨b, hbsel2, hib⟩
      · refine Or.inl (List.mem_filter.mpr ⟨hu, ?_⟩)
        cases hcont : (covers b).contains i
        · rfl
        · exact absurd (contains_iff_nat.mp hcont) hib
    · refine Or.inr ⟨p, ?_, hip⟩
      by_cases hcont : s.contains b
      · rw [dif_pos hcont]; exact hp
      · rw [dif_neg hcont]; exact List.mem_cons_of_mem _ hp

/-! ### Stage equations and subset facts for `select_cover_for_one_output` -/

theorem greedy_complete_cover_eq (pis : List String) (covers : String → List Nat)
    (already_selected : List String) (all_on_indices : List Nat) :
    greedy_complete_cover pis covers already_selected all_on_indices =
      greedyLoop covers
        (pis.filter (fun pi => !already_selected.dedup.contains pi))
        already_selected.dedup
        (all_on_indices.filter (fun i =>
          !already_selected.dedup.any (fun pi => (covers pi).contains i))) := rfl

theorem select_cover_eq (inputs outputs : List String) (k : Nat) (names : Option (List String)) :
    select_cover_for_one_output inputs outputs k names =
      (pySortedSet (greedy_complete_cover (candidatePis inputs outputs k)
          (coversFun inputs outputs k)
          (pick_epis (mintermTable inputs outputs k)).1 (onIndices inputs outputs k)).1,
       (greedy_complete_cover (candidatePis inputs outputs k) (coversFun inputs outputs k)
          (pick_epis (mintermTable inputs outputs k)).1 (onIndices inputs outputs k)).2,
       build_sum_of_products (pySortedSet (greedy_complete_cover (candidatePis inputs outputs k)
          (coversFun inputs outputs k)
          (pick_epis (mintermTable inputs outputs k)).1 (onIndices inputs outputs k)).1) names,
       cubes_for_espresso (pySortedSet (greedy_complete_cover (candidatePis inputs outputs k)
          (coversFun inputs outputs k)
          (pick_epis (mintermTable inputs outputs k)).1 (onIndices inputs outputs k)).1)
         (outputs.headD "").length k) := rfl

theorem onsetBits_sub {inputs outputs : List String} {k : Nat} {b : String}
    (h : b ∈ onsetBits inputs outputs k) : b ∈ inputs := by
  unfold onsetBits at h
  rcases List.mem_filterMap.mp h with ⟨p, hp, hcond⟩
  by_cases hc : trit p.2 k = '1'
  · rw [if_pos hc] at hcond
    rw [← Option.some_injective _ hcond]
    exact (List.mem_zip hp).1
  · rw [if_neg hc] at hcond
    cases hcond

/-- Membership in a coverage entry names a real onset input covered by the
implicant. -/
theorem coversFun_getD {inputs outputs : List String} {k : Nat} {pi : String} {i : Nat}
    (h : i ∈ coversFun inputs outputs k pi) :
    inputs.getD i "" ∈ onsetBits inputs outputs k ∧
      implicant_covers_input pi (inputs.getD i "") = true := by
  unfold coversFun at h
  rcases List.mem_filterMap.mp h with ⟨p, hp, hcond⟩
  by_cases hc : ((onsetBits inputs outputs k).contains p.1 &&
      implicant_covers_input pi p.1) = true
  · rw [if_pos hc] at hcond
    have hip : p.2 = i := Option.some_injective _ hcond
    have hinv := idx_by_bits_invariant inputs p hp
    rw [← hip, hinv]
    obtain ⟨h1, h2⟩ := (Bool.and_eq_true _ _).mp hc
    exact ⟨contains_iff.mp h1, h2⟩
  · rw [if_neg hc] at hcond
    cases hcond

/-- On an onset index, the stored coverage-entry test agrees with
`implicant_covers_input` against the enumerated input. -/
theorem coversFun_contains_iff {inputs outputs : List String} {k : Nat} {pi : String} {idx : Nat}
    (hidx : idx ∈ onIndices inputs outputs k) :
    (coversFun inputs outputs k pi).contains idx =
      implicant_covers_input pi (inputs.getD idx "") := by
  cases hcov : implicant_covers_input pi (inputs.getD idx "")
  · cases hcont : (coversFun inputs outputs k pi).contains idx
    · rfl
    · have hmem := contains_iff_nat.mp hcont
      have := (coversFun_getD hmem).2
      rw [hcov] at this
      cases this
  · unfold onIndices at hidx
    rw [List.mem_dedup] at hidx
    rcases List.mem_map.mp hidx with ⟨b, hb, hbe⟩
    have hbin : b ∈ inputs := onsetBits_sub hb
    have hpair := idxOfBits_mem hbin
    rw [hbe] at hpair
    have hinv := idx_by_bits_invariant inputs (b, idx) hpair
    simp only at hinv
    refine contains_iff_nat.mpr ?_
    unfold coversFun
    refine List.mem_filterMap.mpr ⟨(b, idx), hpair, ?_⟩
    rw [if_pos]
    rw [Bool.and_eq_true]
    refine ⟨?_, ?_⟩
    · exact contains_iff.mpr hb
    · rw [hinv] at hcov
      exact hcov

/-- Every essential prime implicant extracted by `pick_epis` is one of the
candidate (off-set-filtered) prime implicants. -/
theorem pick_epis_sub {inputs outputs : List String} {k : Nat} :
    ∀ e ∈ (pick_epis (mintermTable inputs outputs k)).1, e ∈ candidatePis inputs outputs k := by
  intro e he
  unfold pick_epis at he
  simp only at he
  rw [List.mem_dedup] at he
  rcases List.mem_filterMap.mp he with ⟨q, hq, hcond⟩
  by_cases hl : q.2.length = 1
  · rw [if_pos hl] at hcond
    obtain ⟨a, ha⟩ := List.length_eq_one.mp hl
    have hea : e = a := by
      rw [ha] at hcond
      exact (Option.some_injective _ hcond).symm
    unfold mintermTable at hq
    rcases List.mem_map.mp hq with ⟨i, _, hie⟩
    have hq2 : q.2 = (candidatePis inputs outputs k).filter
        (fun pi => (coversFun inputs outputs k pi).contains i) := by
      rw [← hie]
    have : a ∈ q.2 := by rw [ha]; exact List.mem_singleton.mpr rfl
    rw [hq2] at this
    rw [hea]
    exact List.mem_of_mem_filter this
  · rw [if_neg hl] at hcond
    cases hcond

/-- Everything in the returned (sorted) cover is a candidate prime
implicant. -/
theorem selected_sub_candidates (inputs outputs : List String) (k : Nat)
    (names : Option (List String)) :
    ∀ pi ∈ (select_cover_for_one_output inputs outputs k names).1,
      pi ∈ candidatePis inputs outputs k := by
  intro pi hpi
  rw [select_cover_eq] at hpi
  simp only at hpi
  rw [mem_pySortedSet] at hpi
  rw [greedy_complete_cover_eq] at hpi
  rcases greedyLoop_sel_sub _ _ _ _ pi hpi with h1 | h1
  · rw [List.mem_dedup] at h1
    exact pick_epis_sub pi h1
  · exact List.mem_of_mem_filter h1

/-- Claim C1: every candidate prime implicant that survives the off-set
post-filter covers no off-set assignment (an enumerated input outside the
on/dc union), and every implicant of the returned cover is such a
candidate. -/
theorem offset_soundness (inputs outputs : List String) (k : Nat)
    (names : Option (List String)) :
    (∀ pi ∈ candidatePis inputs outputs k, ∀ x ∈ inputs,
        x ∉ unionBits inputs outputs k → implicant_covers_input pi x = false) ∧
    (∀ pi ∈ (select_cover_for_one_output inputs outputs k names).1,
        pi ∈ candidatePis inputs outputs k) := by
  constructor
  · intro pi hpi x hx hxu
    unfold candidatePis at hpi
    have hcond := (List.mem_filter.mp hpi).2
    rw [Bool.not_eq_true'] at hcond
    have hall := List.any_eq_false.mp hcond
    have hxoff : x ∈ offBits inputs outputs k := by
      unfold offBits
      refine List.mem_filter.mpr ⟨hx, ?_⟩
      cases hcont : (unionBits inputs outputs k).contains x
      · rfl
      · exact absurd (contains_iff.mp hcont) hxu
    have := hall x hxoff
    rw [Bool.not_eq_true] at this
    exact this
  · exact selected_sub_candidates inputs outputs k names

/-- Claim C1 witness: on the spec's scenario 5 (`N=2`, on-set `{00}`,
dc-set `{01}`), the retained implicant `0-` covers neither off-set
assignment. -/
theorem offset_soundness_witness :
    implicant_covers_input "0-" "10" = false ∧ implicant_covers_input "0-" "11" = false :=
  ⟨(offset_soundness ["00", "01", "10", "11"] ["1", "-", "0", "0"] 0 none).1
      "0-" (by decide) "10" (by decide) (by decide),
   (offset_soundness ["00", "01", "10", "11"] ["1", "-", "0", "0"] 0 none).1
      "0-" (by decide) "11" (by decide) (by decide)⟩

/-- Claim C3: cover selection is total and loses nothing — every on-set
assignment is either covered by some implicant of the returned selection
or reported in the returned uncovered index set (assignments whose
coverage-table entry is empty necessarily land in the uncovered set). -/
theorem coverage_completeness (inputs outputs : List String) (k : Nat)
    (names : Option (List String)) :
    ∀ idx ∈ onIndices inputs outputs k,
      (∃ pi ∈ (select_cover_for_one_output inputs outputs k names).1,
          implicant_covers_input pi (inputs.getD idx "") = true) ∨
        idx ∈ (select_cover_for_one_output inputs outputs k names).2.1 := by
  intro idx hidx
  rw [select_cover_eq]
  simp only
  rw [greedy_complete_cover_eq]
  set pis := candidatePis inputs outputs k with hpis
  set covers := coversFun inputs outputs k with hcovers
  set sel0 := (pick_epis (mintermTable inputs outputs k)).1.dedup with hsel0
  set unc0 := (onIndices inputs outputs k).filter
      (fun i => !sel0.any (fun pi => (covers pi).contains i)) with hunc0
  set rem0 := pis.filter (fun pi => !sel0.contains pi) with hrem0
  have hpre : idx ∈ unc0 ∨ ∃ p ∈ sel0, idx ∈ covers p := by
    by_cases hin : idx ∈ unc0
    · exact Or.inl hin
    · right
      have hany : sel0.any (fun pi => (covers pi).contains idx) = true := by
        cases hA : sel0.any (fun pi => (covers pi).contains idx)
        · exfalso
          refine hin (List.mem_filter.mpr ⟨hidx, ?_⟩)
          rw [hA]
          rfl
        · rfl
      rcases List.any_eq_true.mp hany with ⟨p, hp, hcp⟩
      exact ⟨p, hp, contains_iff_nat.mp hcp⟩
  rcases greedyLoop_cover covers rem0 sel0 unc0 idx hpre with h1 | ⟨p, hp, hip⟩
  · exact Or.inr h1
  · left
    refine ⟨p, ?_, ?_⟩
    · rw [mem_pySortedSet]
      exact hp
    · exact (coversFun_getD hip).2

/-- Claim C3 witness: for the single on-set assignment `11` of the
`N=2, on-set={3}` scenario, the returned cover either covers it or reports
index 3 uncovered. -/
theorem coverage_completeness_witness :
    (∃ pi ∈ (select_cover_for_one_output ["00", "01", "10", "11"]
        ["0", "0", "0", "1"] 0 none).1,
        implicant_covers_input pi ((["00", "01", "10", "11"] : List String).getD 3 "") = true) ∨
      3 ∈ (select_cover_for_one_output ["00", "01", "10", "11"]
        ["0", "0", "0", "1"] 0 none).2.1 :=
  coverage_completeness ["00", "01", "10", "11"] ["0", "0", "0", "1"] 0 none 3 (by decide)

/-- Claim C4: an on-set assignment covered by exactly one candidate prime
implicant forces that implicant into the returned selection (`pick_epis`
reads the original coverage table in a single pass, so the hypothesis is
stated against that original table). -/
theorem essential_inclusion (inputs outputs : List String) (k : Nat)
    (names : Option (List String)) (idx : Nat) (pi0 : String)
    (hidx : idx ∈ onIndices inputs outputs k)
    (huniq : (candidatePis inputs outputs k).filter
        (fun pi => implicant_covers_input pi (inputs.getD idx "")) = [pi0]) :
    pi0 ∈ (select_cover_for_one_output inputs outputs k names).1 := by
  have hentry : (candidatePis inputs outputs k).filter
      (fun pi => (coversFun inputs outputs k pi).contains idx) = [pi0] := by
    rw [List.filter_congr (fun pi _ => coversFun_contains_iff hidx)]
    exact huniq
  have hepis : pi0 ∈ (pick_epis (mintermTable inputs outputs k)).1 := by
    unfold pick_epis
    simp only
    rw [List.mem_dedup]
    refine List.mem_filterMap.mpr
      ⟨(idx, (candidatePis inputs outputs k).filter
          (fun pi => (coversFun inputs outputs k pi).contains idx)), ?_, ?_⟩
    · unfold mintermTable
      exact List.mem_map.mpr ⟨idx, hidx, rfl⟩
    · rw [hentry]
      rfl
  rw [select_cover_eq]
  simp only
  rw [mem_pySortedSet, greedy_complete_cover_eq]
  exact greedyLoop_sel_mono _ _ _ _ pi0 (List.mem_dedup.mpr hepis)

/-- Claim C4 witness: assignment `11` (index 3) is covered only by the
candidate implicant `11`, which therefore appears in the returned cover. -/
theorem essential_inclusion_witness :
    "11" ∈ (select_cover_for_one_output ["00", "01", "10", "11"]
      ["0", "0", "0", "1"] 0 none).1 :=
  essential_inclusion ["00", "01", "10", "11"] ["0", "0", "0", "1"] 0 none 3 "11"
    (by decide) (by decide)

/-! ### Primality of the derived implicant set -/

theorem mem_enum_of_mem {x : String} {l : List String} (h : x ∈ l) :
    ∃ j, (j, x) ∈ l.enum := by
  rcases List.mem_iff_getElem.mp h with ⟨n, hn, he⟩
  exact ⟨n, List.mem_enum_iff_getElem?.mpr (by
    rw [List.getElem?_eq_some]
    exact ⟨hn, he⟩)⟩

theorem nonRedundant_sub {a : String} {pis : List String}
    (h : a ∈ nonRedundant pis) : a ∈ pis := by
  unfold nonRedundant at h
  rcases List.mem_filterMap.mp h with ⟨q, hq, hcond⟩
  by_cases hc : pis.enum.any (fun r => r.1 ≠ q.1 && implicant_covers_implicant r.2 q.2) = true
  · rw [if_pos hc] at hcond
    cases hcond
  · rw [if_neg hc] at hcond
    have hqa : q.2 = a := Option.some_injective _ hcond
    rw [← hqa]
    have := List.mem_enum_iff_getElem?.mp hq
    rcases List.getElem?_eq_some.mp this with ⟨hlt, hget⟩
    rw [← hget]
    exact List.getElem_mem hlt

theorem nonRedundant_spec {pis : List String} :
    ∀ a ∈ nonRedundant pis, ∀ b ∈ pis, b ≠ a →
      implicant_covers_implicant b a = false := by
  intro a ha b hb hne
  unfold nonRedundant at ha
  rcases List.mem_filterMap.mp ha with ⟨q, hq, hcond⟩
  by_cases hc : pis.enum.any (fun r => r.1 ≠ q.1 && implicant_covers_implicant r.2 q.2) = true
  · rw [if_pos hc] at hcond
    cases hcond
  · rw [if_neg hc] at hcond
    have hqa : q.2 = a := Option.some_injective _ hcond
    have hall := List.any_eq_false.mp (Bool.not_eq_true _ ▸ hc : pis.enum.any _ = false)
    obtain ⟨j, hj⟩ := mem_enum_of_mem hb
    have hjb := hall (j, b) hj
    by_cases hji : j = q.1
    · exfalso
      have h1 := List.mem_enum_iff_getElem?.mp hj
      have h2 := List.mem_enum_iff_getElem?.mp hq
      rw [hji] at h1
      rw [h1] at h2
      exact hne (by rw [← hqa, ← Option.some_injective _ h2])
    · cases hcov : implicant_covers_implicant b a
      · rfl
      · exfalso
        apply hjb
        rw [Bool.and_eq_true]
        refine ⟨?_, ?_⟩
        · simp only [decide_eq_true_eq]
          exact hji
        · rw [hqa]
          exact hcov

/-- Claim C5: the prime-implicant set returned by
`derive_prime_implicants` is non-redundant — no member is subsumed by a
different member, where `implicant_covers_implicant b a` states that
every fixed position of `b` is fixed in `a` with the same value (b
subsumes a). -/
theorem derive_prime_implicants_nonredundant (minterms : List String) :
    ∀ a ∈ derive_prime_implicants minterms, ∀ b ∈ derive_prime_implicants minterms,
      b ≠ a → implicant_covers_implicant b a = false := by
  intro a ha b hb hne
  have hde : derive_prime_implicants minterms =
      match qmLoop (maxFixed (pySortedSet minterms) + 1) (pySortedSet minterms) [] with
      | some primes => pySortedSet (nonRedundant (pySortedSet primes))
      | none => [] := rfl
  rw [hde] at ha hb
  rcases hq : qmLoop (maxFixed (pySortedSet minterms) + 1) (pySortedSet minterms) [] with _ | primes
  · rw [hq] at ha
    cases ha
  · rw [hq] at ha hb
    simp only at ha hb
    rw [mem_pySortedSet] at ha hb
    exact nonRedundant_spec a ha b (nonRedundant_sub hb) hne

/-- Claim C5 witness: from minterms `{00, 11}` both terms survive as prime
implicants and neither subsumes the other. -/
theorem derive_prime_implicants_nonredundant_witness :
    implicant_covers_implicant "11" "00" = false :=
  derive_prime_implicants_nonredundant ["00", "11"] "00" (by decide) "11" (by decide)
    (by decide)

/-- Claim C6: at each iteration of greedy completion the chosen implicant
maximizes the Python score tuple (uncovered-coverage gain descending,
don't-care count descending, literal count ascending — the third component
is the negated literal count, so tuple `>` encodes exactly that
priority), and the loop stops exactly on an empty uncovered set, a missing
candidate, or a best candidate with zero gain. -/
theorem greedy_step_characterization (covers : String → List Nat)
    (remaining selected : List String) (uncovered : List Nat) :
    (uncovered = [] →
      greedyLoop covers remaining selected uncovered = (selected, uncovered)) ∧
    (∀ sc, uncovered ≠ [] → findBest remaining uncovered covers = (none, sc) →
      greedyLoop covers remaining selected uncovered = (selected, uncovered)) ∧
    (∀ b sc, findBest remaining uncovered covers = (some b, sc) →
      (sc = score_pi_for_greedy b uncovered covers ∧
        ∀ q ∈ remaining, tupGt (score_pi_for_greedy q uncovered covers) sc = false) ∧
      (sc.1 = 0 →
        greedyLoop covers remaining selected uncovered = (selected, uncovered)) ∧
      (uncovered ≠ [] → sc.1 ≠ 0 →
        greedyLoop covers remaining selected uncovered =
          greedyLoop covers (remaining.filter (fun pi => pi ≠ b))
            (if selected.contains b then selected else b :: selected)
            (uncovered.filter (fun i => !(covers b).contains i)))) := by
  refine ⟨?_, ?_, ?_⟩
  · intro hu
    exact greedyLoop_eq_empty covers remaining selected uncovered
      (List.isEmpty_iff.mpr hu)
  · intro sc hu hfb
    refine greedyLoop_eq_none covers selected ?_ hfb
    intro hemp
    exact hu (List.isEmpty_iff.mp hemp)
  · intro b sc hfb
    refine ⟨findBest_spec hfb, ?_, ?_⟩
    · intro hz
      by_cases hu : uncovered = []
      · exact greedyLoop_eq_empty covers remaining selected uncovered
          (List.isEmpty_iff.mpr hu)
      · exact greedyLoop_eq_zero covers selected
          (fun hemp => hu (List.isEmpty_iff.mp hemp)) hfb hz
    · intro hu hz
      exact greedyLoop_eq_step covers selected
        (fun hemp => hu (List.isEmpty_iff.mp hemp)) hfb hz

/-- Claim C6 witness: with one uncovered index and one candidate, the
scan reports the candidate with its score and the loop selects it. -/
theorem greedy_step_characterization_witness :
    ((1, 0, (-2 : Int)) =
        score_pi_for_greedy "11" [3] (coversFun ["00", "01", "10", "11"] ["0", "0", "0", "1"] 0) ∧
      ∀ q ∈ ["11"],
        tupGt (score_pi_for_greedy q [3] (coversFun ["00", "01", "10", "11"] ["0", "0", "0", "1"] 0))
          (1, 0, (-2 : Int)) = false) ∧
    greedyLoop (coversFun ["00", "01", "10", "11"] ["0", "0", "0", "1"] 0) ["11"] [] [3] =
      greedyLoop (coversFun ["00", "01", "10", "11"] ["0", "0", "0", "1"] 0) [] ["11"] [] := by
  have h := (greedy_step_characterization
    (coversFun ["00", "01", "10", "11"] ["0", "0", "0", "1"] 0) ["11"] [] [3]).2.2
    "11" (1, 0, (-2 : Int)) (by decide)
  exact ⟨h.1, h.2.2 (by decide) (by decide)⟩

/-- Claim C7: on equal-length terms every successful combination has
exactly one fewer fixed position than each argument; hence, the fixed
count being bounded by the length `N`, the level-by-level loop of
`derive_prime_implicants` reaches its exit within `N + 1` rounds — both
for the fuel `N + 1` and for the `maxFixed + 1` fuel the embedding
actually runs with (so the loop terminates and its fuel fallback is
dead). -/
theorem derive_prime_implicants_terminates (minterms : List String) (N : Nat)
    (h : ∀ t ∈ minterms, t.length = N) :
    (∀ a b c : String, a ∈ minterms → b ∈ minterms →
        combine_if_one_bit_diff a b = some c →
        fixedCount c + 1 = fixedCount a ∧ fixedCount c + 1 = fixedCount b) ∧
    (qmLoop (N + 1) (pySortedSet minterms) []).isSome = true ∧
    (qmLoop (maxFixed (pySortedSet minterms) + 1) (pySortedSet minterms) []).isSome = true := by
  refine ⟨?_, ?_, ?_⟩
  · intro a b c ha hb hc
    exact combine_fixedCount_exact (by rw [h a ha, h b hb]) hc
  · apply qmLoop_isSome
    have : maxFixed (pySortedSet minterms) ≤ N := by
      apply maxFixed_le_of_forall
      intro t ht
      have htm : t ∈ minterms := mem_pySortedSet.mp ht
      have hlen : t.length = N := h t htm
      calc fixedCount t ≤ t.data.length := List.countP_le_length _
        _ = N := hlen
    omega
  · exact qmLoop_isSome _ _ _ (Nat.lt_succ_self _)

/-- Claim C7 witness: the two-bit minterm set `{00, 01}` meets the
equal-length hypothesis and the loop completes within the bound. -/
theorem derive_prime_implicants_terminates_witness :
    (qmLoop (2 + 1) (pySortedSet ["00", "01"]) []).isSome = true :=
  (derive_prime_implicants_terminates ["00", "01"] 2 (by decide)).2.1

/-- Claim C2 counterexample: `combine_if_one_bit_diff` does return a
combination for arguments of different lengths (the `zip` silently
truncates), refuting the claimed "identical length" direction of the
iff: here `combine("01", "001") = "0-"` although the lengths differ. -/
theorem combine_unequal_length_cex :
    combine_if_one_bit_diff "01" "001" = some "0-" ∧
      ¬("01" : String).length = ("001" : String).length := by
  refine ⟨?_, ?_⟩ <;> decide

/-- Claim C2 (amended: restricted to equal-length arguments, as at every
call site — the source never checks lengths and works on the truncating
`zip`): a combination exists iff the paired positions agree wherever
either side holds a don't-care and differ in exactly one position (then
necessarily of opposite fixed bits), and the result is the common pattern
with that position replaced by a don't-care. -/
theorem combine_characterization (a b : String) (h : a.length = b.length) :
    ((combine_if_one_bit_diff a b).isSome = true ↔
      (dashAgree (a.data.zip b.data) ∧ diffCount (a.data.zip b.data) = 1)) ∧
    ∀ c, combine_if_one_bit_diff a b = some c →
      c = String.mk (mergePattern (a.data.zip b.data)) := by
  refine ⟨⟨?_, ?_⟩, ?_⟩
  · intro hs
    rcases ho : combine_if_one_bit_diff a b with _ | c
    · rw [ho] at hs
      cases hs
    · exact ⟨(combine_some_parts ho).1, (combine_some_parts ho).2.1⟩
  · intro hcond
    rw [combine_eq, if_pos hcond]
    rfl
  · intro c hc
    exact (combine_some_parts hc).2.2

/-- Claim C2 witness: at the equal-length pair `("01", "11")` a
combination exists and equals the merged pattern `-1`. -/
theorem combine_characterization_witness :
    (combine_if_one_bit_diff "01" "11").isSome = true ∧
      ∀ c, combine_if_one_bit_diff "01" "11" = some c →
        c = String.mk (mergePattern (("01" : String).data.zip ("11" : String).data)) :=
  ⟨(combine_characterization "01" "11" rfl).1.mpr (by decide),
   (combine_characterization "01" "11" rfl).2⟩

/-- Claim C8 counterexample: with an empty on-set but a nonempty dc-set
(`N=1`, inputs `0, 1`, output column `-, 0`), the computed candidate
prime-implicant set is `{0}`, not empty — the "empty prime-implicant set
regardless of its dc-set" part of the claim fails. -/
theorem empty_onset_nonempty_pis_cex :
    onsetBits ["0", "1"] ["-", "0"] 0 = [] ∧
      dcareBits ["0", "1"] ["-", "0"] 0 = ["0"] ∧
      candidatePis ["0", "1"] ["-", "0"] 0 = ["0"] := by
  refine ⟨?_, ?_, ?_⟩ <;> decide

/-- Claim C8 (amended: with an empty on-set, minimization still runs
without error and returns an empty selected cover, an empty uncovered
set, the additive-identity sum-of-products `"0"` and no cube rows; the
prime-implicant set is empty when the dc-set is also empty, but a
nonempty dc-set may leave candidate prime implicants — they are simply
never selected). -/
theorem empty_onset_behavior (inputs outputs : List String) (k : Nat)
    (names : Option (List String)) (h : onsetBits inputs outputs k = []) :
    (select_cover_for_one_output inputs outputs k names).1 = [] ∧
    (select_cover_for_one_output inputs outputs k names).2.1 = [] ∧
    (select_cover_for_one_output inputs outputs k names).2.2.1 = "0" ∧
    (select_cover_for_one_output inputs outputs k names).2.2.2 = [] ∧
    (dcareBits inputs outputs k = [] → candidatePis inputs outputs k = []) := by
  have hOn : onIndices inputs outputs k = [] := by
    unfold onIndices
    rw [h]
    rfl
  have hTab : mintermTable inputs outputs k = [] := by
    unfold mintermTable
    rw [hOn]
    rfl
  have hEpis : (pick_epis (mintermTable inputs outputs k)).1 = [] := by
    rw [hTab]
    rfl
  have hgl : greedy_complete_cover (candidatePis inputs outputs k)
      (coversFun inputs outputs k) (pick_epis (mintermTable inputs outputs k)).1
      (onIndices inputs outputs k) = ([], []) := by
    rw [hEpis, hOn, greedy_complete_cover_eq]
    exact greedyLoop_eq_empty _ _ _ _ rfl
  have hsel : (select_cover_for_one_output inputs outputs k names).1 = [] := by
    rw [select_cover_eq]
    simp only
    rw [hgl]
    rfl
  refine ⟨hsel, ?_, ?_, ?_, ?_⟩
  · rw [select_cover_eq]
    simp only
    rw [hgl]
  · rw [select_cover_eq]
    simp only
    rw [hgl]
    rfl
  · rw [select_cover_eq]
    simp only
    rw [hgl]
    rfl
  · intro hdc
    have hu : unionBits inputs outputs k = [] := by
      unfold unionBits
      rw [h, hdc]
      rfl
    unfold candidatePis
    rw [hu]
    rfl

/-- Claim C8 witness: the `N=1` column with dc-set `{0}` and empty
on-set yields the empty cover, empty uncovered set and SOP `"0"`. -/
theorem empty_onset_behavior_witness :
    (select_cover_for_one_output ["0", "1"] ["-", "0"] 0 none).1 = [] ∧
    (select_cover_for_one_output ["0", "1"] ["-", "0"] 0 none).2.1 = [] ∧
    (select_cover_for_one_output ["0", "1"] ["-", "0"] 0 none).2.2.1 = "0" ∧
    (select_cover_for_one_output ["0", "1"] ["-", "0"] 0 none).2.2.2 = [] := by
  have h := empty_onset_behavior ["0", "1"] ["-", "0"] 0 none (by decide)
  exact ⟨h.1, h.2.1, h.2.2.1, h.2.2.2.1⟩

/-! ### Rendering agrees with the specification text -/

theorem string_foldl_shift : ∀ (l : List String) (a : String),
    l.foldl (fun r t => r ++ t) a = a ++ l.foldl (fun r t => r ++ t) "" := by
  intro l
  induction l with
  | nil => intro a; exact (String.append_empty a).symm
  | cons x xs ih =>
    intro a
    simp only [List.foldl_cons]
    rw [ih (a ++ x), ih ("" ++ x)]
    show (a ++ x) ++ _ = a ++ (x ++ _)
    rw [String.append_assoc]

theorem string_join_cons (s : String) (l : List String) :
    String.join (s :: l) = s ++ String.join l := by
  show (s :: l).foldl (fun r t => r ++ t) "" = s ++ l.foldl (fun r t => r ++ t) ""
  rw [List.foldl_cons]
  exact string_foldl_shift l ("" ++ s)

/-- Unfolding equations for the spec-side renderers. -/
theorem hasFixedLiteral_cons (b : Char) (bs : List Char) (n : String) (ns : List String) :
    hasFixedLiteral (b :: bs) (n :: ns) = (b = '1' || b = '0' || hasFixedLiteral bs ns) := rfl

theorem literalsCat_cons (b : Char) (bs : List Char) (n : String) (ns : List String) :
    literalsCat (b :: bs) (n :: ns) =
      if b = '1' then n ++ literalsCat bs ns
      else if b = '0' then n ++ "\x27" ++ literalsCat bs ns
      else literalsCat bs ns := rfl

/-- The source's literal list is empty exactly when the spec's
fixed-literal test fails. -/
theorem litTerms_empty_iff : ∀ (bs : List Char) (ns : List String),
    ((bs.zip ns).filterMap (fun p =>
        if p.1 = '1' then some p.2
        else if p.1 = '0' then some (p.2 ++ "\x27") else none)) = [] ↔
      hasFixedLiteral bs ns = false := by
  intro bs
  induction bs with
  | nil =>
    intro ns
    simp [hasFixedLiteral]
  | cons b bs ih =>
    intro ns
    cases ns with
    | nil => simp [hasFixedLiteral]
    | cons n ns =>
      rw [List.zip_cons_cons, hasFixedLiteral_cons]
      by_cases h1 : b = '1'
      · simp [List.filterMap_cons, h1]
      · by_cases h0 : b = '0'
        · simp [List.filterMap_cons, h1, h0]
        · simp [List.filterMap_cons, h1, h0, ih ns]

/-- The source's joined literal list is the spec's concatenation. -/
theorem litTerms_join : ∀ (bs : List Char) (ns : List String),
    String.join ((bs.zip ns).filterMap (fun p =>
        if p.1 = '1' then some p.2
        else if p.1 = '0' then some (p.2 ++ "\x27") else none)) =
      literalsCat bs ns := by
  intro bs
  induction bs with
  | nil =>
    intro ns
    rfl
  | cons b bs ih =>
    intro ns
    cases ns with
    | nil => rfl
    | cons n ns =>
      rw [List.zip_cons_cons, literalsCat_cons]
      by_cases h1 : b = '1'
      · simp only [List.filterMap_cons, h1, if_true, if_pos]
        rw [string_join_cons, ih ns]
      · by_cases h0 : b = '0'
        · subst h0
          rw [List.filterMap_cons]
          show String.join ((n ++ "\x27") :: (bs.zip ns).filterMap
            (fun p => if p.1 = '1' then some p.2
              else if p.1 = '0' then some (p.2 ++ "\x27") else none)) = _
          rw [string_join_cons, ih ns]
          show (n ++ "\x27") ++ literalsCat bs ns =
            if ('0' : Char) = '1' then n ++ literalsCat bs ns
            else if ('0' : Char) = '0' then n ++ "\x27" ++ literalsCat bs ns
            else literalsCat bs ns
          rw [if_neg (by decide), if_pos rfl]
        · simp only [List.filterMap_cons, h1, h0, if_false, if_neg]
          rw [ih ns]

theorem product_term_unfold (imp : String) (names : Option (List String)) :
    implicant_to_product_term imp names =
      (if ((imp.data.zip (names.getD (defaultVarNames imp.length))).filterMap (fun p =>
          if p.1 = '1' then some p.2
          else if p.1 = '0' then some (p.2 ++ "\x27") else none)).isEmpty
       then "1"
       else String.join ((imp.data.zip (names.getD (defaultVarNames imp.length))).filterMap
          (fun p =>
            if p.1 = '1' then some p.2
            else if p.1 = '0' then some (p.2 ++ "\x27") else none))) := rfl

theorem product_term_eq_spec (imp : String) (names : Option (List String)) :
    implicant_to_product_term imp names =
      productTermSpec imp (names.getD (defaultVarNames imp.length)) := by
  rw [product_term_unfold]
  unfold productTermSpec
  set ns := names.getD (defaultVarNames imp.length) with hns
  by_cases hf : hasFixedLiteral imp.data ns = true
  · have hne : ¬((imp.data.zip ns).filterMap (fun p =>
        if p.1 = '1' then some p.2
        else if p.1 = '0' then some (p.2 ++ "\x27") else none)).isEmpty = true := by
      intro hc
      rw [(litTerms_empty_iff imp.data ns).mp (List.isEmpty_iff.mp hc)] at hf
      cases hf
    rw [if_neg hne, if_pos hf]
    exact litTerms_join imp.data ns
  · have hff : hasFixedLiteral imp.data ns = false := by
      cases hh : hasFixedLiteral imp.data ns
      · rfl
      · exact absurd hh hf
    have hempty := (litTerms_empty_iff imp.data ns).mpr hff
    rw [if_pos (by rw [hempty]; rfl), if_neg hf]

theorem joinPlusSpec_append_head (x y : String) (as : List String) :
    joinPlusSpec ((x ++ y) :: as) = x ++ joinPlusSpec (y :: as) := by
  cases as with
  | nil => rfl
  | cons b bs =>
    show (x ++ y) ++ " + " ++ joinPlusSpec (b :: bs) = x ++ (y ++ " + " ++ joinPlusSpec (b :: bs))
    rw [String.append_assoc, String.append_assoc, String.append_assoc y " + " (joinPlusSpec (b :: bs))]

theorem intercalate_go_eq : ∀ (as : List String) (acc : String),
    String.intercalate.go acc " + " as = joinPlusSpec (acc :: as) := by
  intro as
  induction as with
  | nil => intro acc; rfl
  | cons a as ih =>
    intro acc
    show String.intercalate.go (acc ++ " + " ++ a) " + " as = _
    rw [ih (acc ++ " + " ++ a)]
    rw [joinPlusSpec_append_head (acc ++ " + ") a as]
    rfl

theorem intercalate_eq_joinPlus (l : List String) :
    String.intercalate " + " l = joinPlusSpec l := by
  cases l with
  | nil => rfl
  | cons a as =>
    show String.intercalate.go a " + " as = _
    exact intercalate_go_eq as a

/-- Claim C9: the product-term renderer emits the variable name for a
fixed 1, the complemented name for a fixed 0, skips don't-cares and
concatenates without separator, rendering an all-don't-care implicant as
the multiplicative identity `1`; the sum-of-products joins the ordered
product terms with the plus separator (`" + "`) and renders an empty
selection as the additive identity `0` — both exactly as the spec-side
renderers transcribed from §4.4 prescribe. -/
theorem rendering_matches_spec (imp : String) (sel : List String)
    (names : Option (List String)) :
    implicant_to_product_term imp names =
      productTermSpec imp (names.getD (defaultVarNames imp.length)) ∧
    build_sum_of_products sel names = sumOfProductsSpec sel names := by
  refine ⟨product_term_eq_spec imp names, ?_⟩
  unfold build_sum_of_products sumOfProductsSpec
  cases sel with
  | nil => rfl
  | cons t ts =>
    rw [if_neg (by intro hc; cases List.isEmpty_iff.mp hc)]
    rw [intercalate_eq_joinPlus]
    simp only
    congr 1
    exact List.map_congr_left (fun pi _ => product_term_eq_spec pi names)

/-! ### Selection order, provenance and cube rows -/

theorem replicate_set_indicator (n k : Nat) (hk : k < n) :
    (List.replicate n '0').set k '1' =
      (List.range n).map (fun i => if i = k then '1' else '0') := by
  apply List.ext_getElem
  · rw [List.length_set, List.length_replicate, List.length_map, List.length_range]
  · intro i h1 h2
    rw [List.length_set, List.length_replicate] at h1
    rw [List.getElem_set, List.getElem_replicate]
    rw [List.getElem_map]
    rw [List.getElem_range]
    by_cases hik : i = k
    · rw [if_pos hik, if_pos hik.symm]
    · rw [if_neg hik, if_neg (fun hc => hik hc.symm)]

/-- Claim C10: the selected cover returned by
`select_cover_for_one_output` is strictly increasing in the code-point
(lexicographic) string order — hence duplicate-free; every element of it
belongs to the off-set-filtered candidate prime-implicant set; and the
emitted cube rows are exactly the selected implicants, in the same order,
each suffixed by the output-indicator vector with `1` at the current
output column and `0` elsewhere. -/
theorem selection_invariants (inputs outputs : List String) (k : Nat)
    (names : Option (List String)) (hk : k < (outputs.headD "").length) :
    ((select_cover_for_one_output inputs outputs k names).1).Pairwise
        (fun a b => pyLt a b = true) ∧
    (∀ pi ∈ (select_cover_for_one_output inputs outputs k names).1,
        pi ∈ candidatePis inputs outputs k) ∧
    (select_cover_for_one_output inputs outputs k names).2.2.2 =
      (select_cover_for_one_output inputs outputs k names).1.map
        (fun pi => pi ++ " " ++ String.mk ((List.range (outputs.headD "").length).map
          (fun i => if i = k then '1' else '0'))) := by
  refine ⟨?_, selected_sub_candidates inputs outputs k names, ?_⟩
  · rw [select_cover_eq]
    simp only
    exact pySortedSet_sorted_lt _
  · rw [select_cover_eq]
    simp only
    unfold cubes_for_espresso
    rw [replicate_set_indicator _ k hk]

/-- Claim C10 witness: on the `N=2, on-set={1,2,3}` two-output example the
cover is strictly sorted, drawn from the candidate set, and the cube rows
carry the `01` indicator for output column 1. -/
theorem selection_invariants_witness :
    ((select_cover_for_one_output ["00", "01", "10", "11"] ["10", "11", "01", "11"] 1 none).1).Pairwise
        (fun a b => pyLt a b = true) ∧
    (∀ pi ∈ (select_cover_for_one_output ["00", "01", "10", "11"] ["10", "11", "01", "11"] 1 none).1,
        pi ∈ candidatePis ["00", "01", "10", "11"] ["10", "11", "01", "11"] 1) ∧
    (select_cover_for_one_output ["00", "01", "10", "11"] ["10", "11", "01", "11"] 1 none).2.2.2 =
      (select_cover_for_one_output ["00", "01", "10", "11"] ["10", "11", "01", "11"] 1 none).1.map
        (fun pi => pi ++ " " ++ String.mk ((List.range (("10" : String).length)).map
          (fun i => if i = 1 then '1' else '0'))) :=
  selection_invariants ["00", "01", "10", "11"] ["10", "11", "01", "11"] 1 none (by decide)

end Lab1
